import Mathlib

/-
Verification of the cartesian contour kernel of galileo-types
(`src/galileo-types/src/cartesian/traits/contour.rs`).

The scalar type `P::Num` (generic over `num_traits`, instantiated at `f64`
in the tests) is embedded as `ℚ`, an ordered field with exact arithmetic.
Functions whose source is in the given file (`area_signed`, `winding`,
`distance_to_point_sq` and its `min_by` comparator) are translated from the
source; the point-closing walk, the segment walk and the per-segment
distance live in other files of the repository and are modelled from the
spec, as marked in their doc comments.
-/

namespace Galileo

/-- A 2d cartesian point with rational coordinates, embedding `Point2`
with `x()` and `y()` accessors. -/
structure Point2 where
  x : ℚ
  y : ℚ
deriving DecidableEq

/-- A boundary segment `Segment(a, b)`: an ordered pair of points. -/
structure Segment where
  a : Point2
  b : Point2
deriving DecidableEq

/-- A contour: a tagged union of an open polyline and a closed polygon
boundary, each holding an ordered point sequence. -/
inductive Contour where
  | Open (points : List Point2)
  | Closed (points : List Point2)
deriving DecidableEq

/-- Winding direction of a contour. -/
inductive Winding where
  | Clockwise
  | CounterClockwise
deriving DecidableEq

/-- Modelled from the spec: `iter_points_closing` (the point-closing
sequence), whose implementation is in `galileo-types/src/contour.rs`,
not among the given sources.  Open contour: exactly its points; closed
contour: its points followed by a repetition of the first point; zero
points give the empty sequence. -/
def iter_points_closing : Contour → List Point2
  | .Open ps => ps
  | .Closed [] => []
  | .Closed (p :: ps) => (p :: ps) ++ [p]

/-- Modelled from the spec: the walk pairing element `i` of a sequence
with element `i+1`, used by `iter_segments`. -/
def pair_walk : List Point2 → List Segment
  | a :: b :: rest => ⟨a, b⟩ :: pair_walk (b :: rest)
  | _ => []

/-- Modelled from the spec: `iter_segments`, whose implementation is in
`galileo-types/src/contour.rs`, not among the given sources: consecutive
pairs drawn from the point-closing sequence. -/
def iter_segments (c : Contour) : List Segment :=
  pair_walk (iter_points_closing c)

/-- Modelled from the spec: `Segment::distance_to_point_sq`, whose
implementation is in `galileo-types/src/segment.rs`, not among the given
sources.  With direction `d = b - a`: if `d` is zero the result is the
squared distance to `a`; otherwise project, clamp the parameter into
`[0, 1]` and return the squared distance to the clamped closest point. -/
def Segment.distance_to_point_sq (s : Segment) (p : Point2) : ℚ :=
  let dx := s.b.x - s.a.x
  let dy := s.b.y - s.a.y
  if dx = 0 ∧ dy = 0 then
    (p.x - s.a.x) ^ 2 + (p.y - s.a.y) ^ 2
  else
    let t0 := ((p.x - s.a.x) * dx + (p.y - s.a.y) * dy) / (dx * dx + dy * dy)
    let t := max 0 (min 1 t0)
    (p.x - (s.a.x + t * dx)) ^ 2 + (p.y - (s.a.y + t * dy)) ^ 2

/-- The accumulator loop of `area_signed`: starting from `aggr` and the
previous point `prev`, add `prev.x * p.y - p.x * prev.y` for each further
point `p` of the iterator. -/
def area_loop (aggr : ℚ) (prev : Point2) : List Point2 → ℚ
  | [] => aggr
  | p :: rest => area_loop (aggr + prev.x * p.y - p.x * prev.y) p rest

/-- `area_signed` from the source: walk the point-closing sequence; an
empty sequence returns zero before any division, otherwise the
accumulated sum is divided by `one + one`. -/
def area_signed (c : Contour) : ℚ :=
  match iter_points_closing c with
  | [] => 0
  | p :: rest => area_loop 0 p rest / (1 + 1)

/-- `winding` from the source: `Clockwise` when the signed area is less
than or equal to zero, `CounterClockwise` otherwise. -/
def winding (c : Contour) : Winding :=
  if area_signed c ≤ 0 then Winding.Clockwise else Winding.CounterClockwise

/-- Rust `std::cmp::min_by`: returns the first argument unless the
comparator answers `Greater`. -/
def cmp_min_by {α : Type} (cmp : α → α → Ordering) (v1 v2 : α) : α :=
  if cmp v1 v2 = Ordering.gt then v2 else v1

/-- Rust `Iterator::min_by`: `reduce` (a left fold from the first
element) of `std::cmp::min_by`; `none` on an empty iterator. -/
def min_by {α : Type} (cmp : α → α → Ordering) : List α → Option α
  | [] => none
  | x :: xs => some (xs.foldl (cmp_min_by cmp) x)

/-- The comparator of the source's minimum selection,
`a.partial_cmp(b).unwrap_or(Ordering::Equal)`: a possibly failing
comparison whose failure is replaced by `Equal`. -/
def pcmp_or_eq {α : Type} (pcmp : α → α → Option Ordering) (a b : α) : Ordering :=
  (pcmp a b).getD Ordering.eq

/-- The `PartialOrd` comparison of the scalar type at `ℚ`, where every
pair is comparable. -/
def pcmpQ (a b : ℚ) : Option Ordering :=
  if a < b then some Ordering.lt
  else if a = b then some Ordering.eq
  else some Ordering.gt

/-- A scalar type with genuinely incomparable values, mirroring a
floating type with a not-a-number element (`none`): comparison fails as
soon as either side is `none`. -/
def pcmpNaN : Option ℚ → Option ℚ → Option Ordering
  | some a, some b => pcmpQ a b
  | _, _ => none

/-- `distance_to_point_sq` from the source: map every segment to its
squared distance to the point and select the minimum with the
failure-replacing comparator. -/
def distance_to_point_sq (c : Contour) (p : Point2) : Option ℚ :=
  min_by (pcmp_or_eq pcmpQ)
    ((iter_segments c).map (fun s => s.distance_to_point_sq p))

/-- Written from the spec's words for the refinement claim about
`area_signed`: accumulate `x_i * y_{i+1} - x_{i+1} * y_i` over
consecutive pairs of a sequence, then divide by two. -/
def shoelace_spec (l : List Point2) : ℚ :=
  ((pair_walk l).map (fun s => s.a.x * s.b.y - s.b.x * s.a.y)).sum / 2

/-- The cross term of one consecutive pair of the shoelace walk. -/
def cross (p q : Point2) : ℚ := p.x * q.y - q.x * p.y

/-- Sum of cross terms along a chain starting at `p`. -/
def csum (p : Point2) : List Point2 → ℚ
  | [] => 0
  | q :: l => cross p q + csum q l

/-- Sum of cross terms of consecutive pairs of a sequence. -/
def chain_sum : List Point2 → ℚ
  | [] => 0
  | p :: l => csum p l

/-- The last element of `l`, or `p` when `l` is empty. -/
def lastD (p : Point2) (l : List Point2) : Point2 := l.getLastD p

/-- Membership in a closed interval of the projection parameter: `q`
lies exactly on the segment `s`. -/
def on_segment (s : Segment) (q : Point2) : Prop :=
  ∃ t : ℚ, 0 ≤ t ∧ t ≤ 1 ∧
    q.x = s.a.x + t * (s.b.x - s.a.x) ∧ q.y = s.a.y + t * (s.b.y - s.a.y)

theorem area_loop_eq_csum (l : List Point2) :
    ∀ (aggr : ℚ) (prev : Point2), area_loop aggr prev l = aggr + csum prev l := by
  induction l with
  | nil => intro aggr prev; simp [area_loop, csum]
  | cons p rest ih =>
    intro aggr prev
    simp only [area_loop, csum, ih, cross]
    ring

theorem area_signed_eq_chain_sum (c : Contour) :
    area_signed c = chain_sum (iter_points_closing c) / 2 := by
  unfold area_signed
  cases h : iter_points_closing c with
  | nil => simp [chain_sum]
  | cons p rest =>
    simp only [chain_sum, area_loop_eq_csum, zero_add]
    norm_num

theorem chain_sum_eq_shoelace_sum (l : List Point2) :
    ((pair_walk l).map (fun s => s.a.x * s.b.y - s.b.x * s.a.y)).sum = chain_sum l := by
  unfold chain_sum
  match l with
  | [] => simp [pair_walk]
  | [p] => simp [pair_walk, csum]
  | p :: q :: rest =>
    have ih := chain_sum_eq_shoelace_sum (q :: rest)
    simp only [pair_walk, List.map_cons, List.sum_cons, ih, chain_sum, csum, cross]

theorem pair_walk_eq_nil_iff (l : List Point2) : pair_walk l = [] ↔ l.length < 2 := by
  match l with
  | [] => simp [pair_walk]
  | [p] => simp [pair_walk]
  | p :: q :: rest => simp [pair_walk]

theorem cmpQ_gt_iff (a b : ℚ) : pcmp_or_eq pcmpQ a b = Ordering.gt ↔ b < a := by
  unfold pcmp_or_eq pcmpQ
  rcases lt_trichotomy a b with h | h | h
  · simp [h, asymm h]
  · subst h
    simp [lt_irrefl]
  · simp [asymm h, ne_of_gt h, h]

theorem foldl_min_spec (xs : List ℚ) :
    ∀ x : ℚ, xs.foldl (cmp_min_by (pcmp_or_eq pcmpQ)) x ∈ x :: xs ∧
      ∀ y ∈ x :: xs, xs.foldl (cmp_min_by (pcmp_or_eq pcmpQ)) x ≤ y := by
  induction xs with
  | nil => intro x; simp
  | cons z zs ih =>
    intro x
    simp only [List.foldl_cons]
    obtain ⟨hmem, hle⟩ := ih (cmp_min_by (pcmp_or_eq pcmpQ) x z)
    by_cases hgt : pcmp_or_eq pcmpQ x z = Ordering.gt
    · have hc : cmp_min_by (pcmp_or_eq pcmpQ) x z = z := by simp [cmp_min_by, hgt]
      rw [hc] at hmem hle ⊢
      have hzx : z < x := (cmpQ_gt_iff x z).mp hgt
      constructor
      · exact List.mem_cons_of_mem _ hmem
      · intro y hy
        rcases List.mem_cons.mp hy with hy | hy
        · subst hy
          exact (hle _ (List.mem_cons_self _ _)).trans hzx.le
        · exact hle y hy
    · have hc : cmp_min_by (pcmp_or_eq pcmpQ) x z = x := by simp [cmp_min_by, hgt]
      have hxz : x ≤ z := by
        by_contra hzx
        exact hgt ((cmpQ_gt_iff x z).mpr (lt_of_not_ge hzx))
      rw [hc] at hmem hle ⊢
      constructor
      · rcases List.mem_cons.mp hmem with hm | hm
        · rw [hm]; exact List.mem_cons_self _ _
        · exact List.mem_cons_of_mem _ (List.mem_cons_of_mem _ hm)
      · intro y hy
        rcases List.mem_cons.mp hy with hy | hy
        · subst hy
          exact hle _ (List.mem_cons_self _ _)
        · rcases List.mem_cons.mp hy with hy | hy
          · subst hy
            exact (hle _ (List.mem_cons_self _ _)).trans hxz
          · exact hle y (List.mem_cons_of_mem _ hy)

theorem min_by_q_spec (l : List ℚ) (v : ℚ) (h : min_by (pcmp_or_eq pcmpQ) l = some v) :
    v ∈ l ∧ ∀ y ∈ l, v ≤ y := by
  match l with
  | [] => simp [min_by] at h
  | x :: xs =>
    simp only [min_by, Option.some.injEq] at h
    obtain ⟨hmem, hle⟩ := foldl_min_spec xs x
    rw [h] at hmem hle
    exact ⟨hmem, hle⟩

theorem min_by_eq_none_iff {α : Type} (cmp : α → α → Ordering) (l : List α) :
    min_by cmp l = none ↔ l = [] := by
  cases l <;> simp [min_by]

theorem distance_min_spec (c : Contour) (q : Point2) (hne : iter_segments c ≠ []) :
    ∃ v, distance_to_point_sq c q = some v ∧
      (∃ s ∈ iter_segments c, Segment.distance_to_point_sq s q = v) ∧
      ∀ s ∈ iter_segments c, v ≤ Segment.distance_to_point_sq s q := by
  have h1 : distance_to_point_sq c q ≠ none := by
    unfold distance_to_point_sq
    rw [Ne, min_by_eq_none_iff]
    simpa using hne
  cases hmin : distance_to_point_sq c q with
  | none => exact absurd hmin h1
  | some v =>
    have hmin2 : min_by (pcmp_or_eq pcmpQ)
        ((iter_segments c).map (fun s => s.distance_to_point_sq q)) = some v := hmin
    obtain ⟨hmem, hle⟩ := min_by_q_spec _ v hmin2
    refine ⟨v, rfl, ?_, ?_⟩
    · rcases List.mem_map.mp hmem with ⟨s, hs, hv⟩
      exact ⟨s, hs, hv⟩
    · intro s hs
      exact hle _ (List.mem_map_of_mem _ hs)

/-- C1: for every closed contour, `area_signed` equals the shoelace sum of
`x_i * y_{i+1} - x_{i+1} * y_i` over consecutive pairs of the point-closing
sequence divided by two, and when the point-closing sequence has fewer
than 2 points the result is exactly zero. -/
theorem C1_area_signed_shoelace (ps : List Point2) :
    area_signed (Contour.Closed ps) =
      shoelace_spec (iter_points_closing (Contour.Closed ps)) ∧
    ((iter_points_closing (Contour.Closed ps)).length < 2 →
      area_signed (Contour.Closed ps) = 0) := by
  constructor
  · rw [area_signed_eq_chain_sum]
    unfold shoelace_spec
    rw [chain_sum_eq_shoelace_sum]
  · intro h
    cases ps with
    | nil => simp [area_signed, iter_points_closing]
    | cons p rest =>
      exfalso
      simp [iter_points_closing] at h
      omega

theorem C1_area_signed_shoelace_witness :
    area_signed (Contour.Closed []) = 0 :=
  (C1_area_signed_shoelace []).2 (by simp [iter_points_closing])

/-- C2: `distance_to_point_sq` is `none` exactly when the segment
sequence is empty, which happens exactly when the point-closing sequence
has fewer than 2 points; on a non-empty segment sequence it returns
`some` of the minimum of the per-segment squared distances. -/
theorem C2_distance_to_point_sq_min (c : Contour) (q : Point2) :
    (distance_to_point_sq c q = none ↔ iter_segments c = []) ∧
    (iter_segments c = [] ↔ (iter_points_closing c).length < 2) ∧
    (iter_segments c ≠ [] → ∃ v, distance_to_point_sq c q = some v ∧
      (∃ s ∈ iter_segments c, Segment.distance_to_point_sq s q = v) ∧
      ∀ s ∈ iter_segments c, v ≤ Segment.distance_to_point_sq s q) := by
  refine ⟨?_, pair_walk_eq_nil_iff _, fun hne => distance_min_spec c q hne⟩
  · unfold distance_to_point_sq
    rw [min_by_eq_none_iff]
    simp

theorem C2_distance_to_point_sq_min_witness :
    ∃ v, distance_to_point_sq (Contour.Open [⟨0, 0⟩, ⟨1, 1⟩]) ⟨0, 0⟩ = some v ∧
      (∃ s ∈ iter_segments (Contour.Open [⟨0, 0⟩, ⟨1, 1⟩]),
        Segment.distance_to_point_sq s ⟨0, 0⟩ = v) ∧
      ∀ s ∈ iter_segments (Contour.Open [⟨0, 0⟩, ⟨1, 1⟩]),
        v ≤ Segment.distance_to_point_sq s ⟨0, 0⟩ :=
  (C2_distance_to_point_sq_min (Contour.Open [⟨0, 0⟩, ⟨1, 1⟩]) ⟨0, 0⟩).2.2
    (by simp [iter_segments, iter_points_closing, pair_walk])

/-- C3: `winding` answers `Clockwise` exactly when `area_signed` is at
most zero and `CounterClockwise` exactly when it is positive, so an area
of exactly zero is classified `Clockwise`. -/
theorem C3_winding_area_sign (ps : List Point2) :
    (winding (Contour.Closed ps) = Winding.Clockwise ↔
      area_signed (Contour.Closed ps) ≤ 0) ∧
    (area_signed (Contour.Closed ps) > 0 ↔
      winding (Contour.Closed ps) = Winding.CounterClockwise) ∧
    (area_signed (Contour.Closed ps) = 0 →
      winding (Contour.Closed ps) = Winding.Clockwise) := by
  unfold winding
  split_ifs with h
  · refine ⟨by simp [h], by simp [h.not_lt], fun _ => rfl⟩
  · have hpos : 0 < area_signed (Contour.Closed ps) := lt_of_not_ge h
    refine ⟨by simp [h], by simp [hpos], fun heq => absurd (le_of_eq heq) h⟩

theorem C3_winding_area_sign_witness :
    winding (Contour.Closed []) = Winding.Clockwise :=
  (C3_winding_area_sign []).2.2 (by simp [area_signed, iter_points_closing])

theorem Point2.eq_iff (u v : Point2) : u = v ↔ u.x = v.x ∧ u.y = v.y := by
  cases u
  cases v
  simp

theorem pair_walk_length (l : List Point2) : (pair_walk l).length = l.length - 1 := by
  match l with
  | [] => simp [pair_walk]
  | [p] => simp [pair_walk]
  | p :: q :: rest =>
    have ih := pair_walk_length (q :: rest)
    simp [pair_walk, ih]

theorem pair_walk_getElem? (l : List Point2) :
    ∀ i : ℕ, (pair_walk l)[i]? =
      l[i]?.bind (fun a => l[i + 1]?.map (fun b => Segment.mk a b)) := by
  match l with
  | [] => intro i; simp [pair_walk]
  | [p] =>
    intro i
    cases i <;> simp [pair_walk]
  | p :: q :: rest =>
    intro i
    cases i with
    | zero => simp [pair_walk]
    | succ j =>
      have ih := pair_walk_getElem? (q :: rest) j
      simpa [pair_walk] using ih

/-- C4: the per-segment squared distance: a degenerate segment (equal
endpoints) gives the squared distance to `a`; otherwise the projection
denominator `dot(d, d)` is nonzero and the result is the squared
distance to the point at the clamped projection parameter. -/
theorem C4_segment_distance_formula (s : Segment) (p : Point2) :
    (s.a = s.b →
      s.distance_to_point_sq p = (p.x - s.a.x) ^ 2 + (p.y - s.a.y) ^ 2) ∧
    (s.a ≠ s.b →
      (s.b.x - s.a.x) * (s.b.x - s.a.x) + (s.b.y - s.a.y) * (s.b.y - s.a.y) ≠ 0 ∧
      s.distance_to_point_sq p =
        (p.x - (s.a.x + max 0 (min 1 (((p.x - s.a.x) * (s.b.x - s.a.x) +
            (p.y - s.a.y) * (s.b.y - s.a.y)) /
            ((s.b.x - s.a.x) * (s.b.x - s.a.x) + (s.b.y - s.a.y) * (s.b.y - s.a.y)))) *
          (s.b.x - s.a.x))) ^ 2 +
        (p.y - (s.a.y + max 0 (min 1 (((p.x - s.a.x) * (s.b.x - s.a.x) +
            (p.y - s.a.y) * (s.b.y - s.a.y)) /
            ((s.b.x - s.a.x) * (s.b.x - s.a.x) + (s.b.y - s.a.y) * (s.b.y - s.a.y)))) *
          (s.b.y - s.a.y))) ^ 2) := by
  constructor
  · intro hab
    simp only [Segment.distance_to_point_sq, ← hab, sub_self]
    simp
  · intro hab
    have hcond : ¬(s.b.x - s.a.x = 0 ∧ s.b.y - s.a.y = 0) := by
      rintro ⟨hx, hy⟩
      apply hab
      rw [Point2.eq_iff]
      exact ⟨(sub_eq_zero.mp hx).symm, (sub_eq_zero.mp hy).symm⟩
    constructor
    · intro h0
      apply hcond
      have h1 : (s.b.x - s.a.x) * (s.b.x - s.a.x) = 0 := by
        nlinarith [mul_self_nonneg (s.b.x - s.a.x), mul_self_nonneg (s.b.y - s.a.y)]
      have h2 : (s.b.y - s.a.y) * (s.b.y - s.a.y) = 0 := by
        nlinarith [mul_self_nonneg (s.b.x - s.a.x), mul_self_nonneg (s.b.y - s.a.y)]
      exact ⟨mul_self_eq_zero.mp h1, mul_self_eq_zero.mp h2⟩
    · simp only [Segment.distance_to_point_sq]
      rw [if_neg hcond]

theorem C4_segment_distance_formula_witness :
    Segment.distance_to_point_sq ⟨⟨1, 2⟩, ⟨1, 2⟩⟩ ⟨4, 6⟩ = 25 ∧
    ((3 : ℚ) - 0) * ((3 : ℚ) - 0) + ((0 : ℚ) - 0) * ((0 : ℚ) - 0) ≠ 0 :=
  ⟨by rw [(C4_segment_distance_formula ⟨⟨1, 2⟩, ⟨1, 2⟩⟩ ⟨4, 6⟩).1 rfl]; norm_num,
   ((C4_segment_distance_formula ⟨⟨0, 0⟩, ⟨3, 0⟩⟩ ⟨0, 0⟩).2
      (by simp [Point2.eq_iff])).1⟩

/-- C5: the point-closing sequence of an Open contour is exactly its
points; for a Closed contour with at least one point it is the points
followed by the first point (length n + 1); with zero points it is
empty. -/
theorem C5_iter_points_closing_spec (ps rest : List Point2) (p : Point2) :
    iter_points_closing (Contour.Open ps) = ps ∧
    iter_points_closing (Contour.Closed (p :: rest)) = (p :: rest) ++ [p] ∧
    (iter_points_closing (Contour.Closed (p :: rest))).length = (p :: rest).length + 1 ∧
    iter_points_closing (Contour.Closed ([] : List Point2)) = [] := by
  refine ⟨rfl, rfl, ?_, rfl⟩
  simp [iter_points_closing]

/-- C6: the segment sequence pairs element `i` of the point-closing
sequence with element `i + 1`: an Open contour with `n` points has
`n - 1` segments (truncated at zero), a Closed contour with `n ≥ 1`
points has `n` segments whose last connects the final point back to the
first, and fewer than 2 closing points give no segments. -/
theorem C6_iter_segments_spec (c : Contour) (ps rest : List Point2) (p : Point2) (i : ℕ) :
    (iter_segments (Contour.Open ps)).length = ps.length - 1 ∧
    (iter_segments (Contour.Closed (p :: rest))).length = (p :: rest).length ∧
    ((iter_points_closing c).length < 2 → iter_segments c = []) ∧
    (iter_segments c)[i]? = (iter_points_closing c)[i]?.bind
      (fun a => (iter_points_closing c)[i + 1]?.map (fun b => Segment.mk a b)) ∧
    (iter_segments (Contour.Closed (p :: rest)))[rest.length]? =
      some (Segment.mk ((p :: rest).getLast (List.cons_ne_nil p rest)) p) := by
  refine ⟨?_, ?_, ?_, pair_walk_getElem? _ i, ?_⟩
  · simp [iter_segments, iter_points_closing, pair_walk_length]
  · simp [iter_segments, iter_points_closing, pair_walk_length]
  · intro h
    exact (pair_walk_eq_nil_iff _).mpr h
  · rw [iter_segments, pair_walk_getElem?]
    have hc : iter_points_closing (Contour.Closed (p :: rest)) = (p :: rest) ++ [p] := rfl
    rw [hc]
    have hlt : rest.length < (p :: rest).length := by simp
    have h1 : ((p :: rest) ++ [p])[rest.length]? = (p :: rest)[rest.length]? := by
      rw [List.getElem?_append]
      simp
    have hlast : (p :: rest)[rest.length]? =
        some ((p :: rest).getLast (List.cons_ne_nil p rest)) := by
      have := List.getLast?_eq_getLast_of_ne_nil (l := p :: rest) (List.cons_ne_nil p rest)
      rw [List.getLast?_eq_getElem?] at this
      simpa using this
    have h2 : ((p :: rest) ++ [p])[rest.length + 1]? = some p := by
      rw [List.getElem?_append_right (by simp)]
      simp
    rw [h1, hlast, h2]
    simp

theorem C6_iter_segments_spec_witness :
    iter_segments (Contour.Open [⟨0, 0⟩]) = [] :=
  (C6_iter_segments_spec (Contour.Open [⟨0, 0⟩]) [] [] ⟨0, 0⟩ 0).2.2.1
    (by simp [iter_points_closing])

theorem csum_append (l m : List Point2) :
    ∀ p : Point2, csum p (l ++ m) = csum p l + csum (lastD p l) m := by
  induction l with
  | nil => intro p; simp [csum, lastD]
  | cons q l' ih =>
    intro p
    have h1 : (q :: l') ++ m = q :: (l' ++ m) := rfl
    rw [h1]
    show cross p q + csum q (l' ++ m) = _
    rw [ih q]
    have h2 : csum p (q :: l') = cross p q + csum q l' := rfl
    have h3 : lastD p (q :: l') = lastD q l' := List.getLastD_cons p q l'
    rw [h2, h3]
    ring

theorem csum_concat (p x : Point2) (l : List Point2) :
    csum p (l ++ [x]) = csum p l + cross (lastD p l) x := by
  rw [csum_append]
  simp [csum]

theorem getLast?_cons_eq (p : Point2) (l : List Point2) :
    (p :: l).getLast? = some (lastD p l) := by
  induction l generalizing p with
  | nil => rfl
  | cons q l' ih =>
    rw [List.getLast?_cons_cons, ih q]
    have h3 : lastD p (q :: l') = lastD q l' := List.getLastD_cons p q l'
    rw [h3]

theorem chain_sum_reverse_aux (l : List Point2) :
    ∀ (m : List Point2) (p : Point2),
      chain_sum (l.reverse ++ (p :: m)) = - csum p l + chain_sum (p :: m) := by
  induction l with
  | nil => intro m p; simp [chain_sum, csum]
  | cons q l' ih =>
    intro m p
    rw [List.reverse_cons, List.append_assoc]
    have hq := ih (p :: m) q
    simp only [List.singleton_append] at hq ⊢
    rw [hq]
    simp only [chain_sum, csum, cross]
    ring

theorem chain_sum_reverse (l : List Point2) :
    chain_sum l.reverse = - chain_sum l := by
  cases l with
  | nil => simp [chain_sum]
  | cons p rest =>
    rw [List.reverse_cons]
    have := chain_sum_reverse_aux rest [] p
    rw [this]
    simp [chain_sum, csum]

theorem chain_sum_closed_cons (p : Point2) (rest : List Point2) :
    chain_sum (iter_points_closing (Contour.Closed (p :: rest))) =
      csum p rest + cross (lastD p rest) p := by
  show chain_sum ((p :: rest) ++ [p]) = _
  simp only [List.cons_append, chain_sum]
  exact csum_concat p p rest

theorem chain_sum_closed_rotate_one (p : Point2) (rest : List Point2) :
    chain_sum (iter_points_closing (Contour.Closed (rest ++ [p]))) =
      chain_sum (iter_points_closing (Contour.Closed (p :: rest))) := by
  cases rest with
  | nil => rfl
  | cons q rs =>
    rw [chain_sum_closed_cons p (q :: rs)]
    show chain_sum ((q :: (rs ++ [p])) ++ [q]) = _
    simp only [List.cons_append, chain_sum]
    rw [csum_concat q q (rs ++ [p]), csum_concat q p rs]
    have hlast : lastD q (rs ++ [p]) = p := by
      simp [lastD]
    rw [hlast]
    simp only [csum, cross, lastD, List.getLastD_cons]
    ring

theorem chain_sum_closed_rotate (ps : List Point2) (n : ℕ) :
    chain_sum (iter_points_closing (Contour.Closed (ps.rotate n))) =
      chain_sum (iter_points_closing (Contour.Closed ps)) := by
  induction n generalizing ps with
  | zero => rw [List.rotate_zero]
  | succ m ih =>
    cases ps with
    | nil => rw [List.rotate_nil]
    | cons p rest =>
      rw [List.rotate_cons_succ, ih (rest ++ [p])]
      exact chain_sum_closed_rotate_one p rest

theorem chain_sum_closed_reverse (l : List Point2) :
    chain_sum (iter_points_closing (Contour.Closed l.reverse)) =
      - chain_sum (iter_points_closing (Contour.Closed l)) := by
  cases l with
  | nil => simp [iter_points_closing, chain_sum]
  | cons p rest =>
    cases hrev : (p :: rest).reverse with
    | nil => exact absurd hrev (by simp)
    | cons h t =>
      rw [chain_sum_closed_cons h t, chain_sum_closed_cons p rest]
      have hh : h = lastD p rest := by
        have h1 : (p :: rest).reverse.head? = some h := by rw [hrev]; rfl
        rw [List.head?_reverse, getLast?_cons_eq] at h1
        exact (Option.some.injEq _ _ ▸ h1).symm
      have hlt : lastD h t = p := by
        have h2 : (p :: rest).reverse.getLast? = some p := by
          rw [List.getLast?_reverse]
          rfl
        rw [hrev, getLast?_cons_eq] at h2
        exact Option.some.injEq _ _ ▸ h2
      have hcs : csum h t = - csum p rest := by
        have h3 : chain_sum ((p :: rest).reverse) = - chain_sum (p :: rest) :=
          chain_sum_reverse (p :: rest)
        rw [hrev] at h3
        simpa [chain_sum] using h3
      rw [hcs, hlt, hh]
      simp only [cross]
      ring

/-- C7: for every closed contour the signed area is invariant under
cyclic rotation of its point sequence and negated by reversing the point
order. -/
theorem C7_area_signed_rotate_reverse (ps : List Point2) (n : ℕ) :
    area_signed (Contour.Closed (ps.rotate n)) = area_signed (Contour.Closed ps) ∧
    area_signed (Contour.Closed ps.reverse) = - area_signed (Contour.Closed ps) := by
  constructor
  · rw [area_signed_eq_chain_sum, area_signed_eq_chain_sum, chain_sum_closed_rotate]
  · rw [area_signed_eq_chain_sum, area_signed_eq_chain_sum, chain_sum_closed_reverse]
    ring

theorem dot_self_ne_zero (dx dy : ℚ) (h : ¬(dx = 0 ∧ dy = 0)) :
    dx * dx + dy * dy ≠ 0 := by
  intro h0
  apply h
  have h1 : dx * dx = 0 := by nlinarith [mul_self_nonneg dx, mul_self_nonneg dy]
  have h2 : dy * dy = 0 := by nlinarith [mul_self_nonneg dx, mul_self_nonneg dy]
  exact ⟨mul_self_eq_zero.mp h1, mul_self_eq_zero.mp h2⟩

theorem segment_distance_nonneg (s : Segment) (p : Point2) :
    0 ≤ s.distance_to_point_sq p := by
  simp only [Segment.distance_to_point_sq]
  split
  · positivity
  · positivity

theorem on_segment_distance_zero (s : Segment) (q : Point2) (h : on_segment s q) :
    s.distance_to_point_sq q = 0 := by
  obtain ⟨t, ht0, ht1, hx, hy⟩ := h
  simp only [Segment.distance_to_point_sq]
  by_cases hc : s.b.x - s.a.x = 0 ∧ s.b.y - s.a.y = 0
  · rw [if_pos hc]
    obtain ⟨hcx, hcy⟩ := hc
    rw [hx, hy, hcx, hcy]
    ring
  · rw [if_neg hc]
    have hD := dot_self_ne_zero (s.b.x - s.a.x) (s.b.y - s.a.y) hc
    have hnum : (q.x - s.a.x) * (s.b.x - s.a.x) + (q.y - s.a.y) * (s.b.y - s.a.y) =
        t * ((s.b.x - s.a.x) * (s.b.x - s.a.x) + (s.b.y - s.a.y) * (s.b.y - s.a.y)) := by
      rw [hx, hy]
      ring
    rw [hnum, mul_div_assoc, div_self hD, mul_one, min_eq_right ht1, max_eq_right ht0,
      hx, hy]
    ring

/-- C8: when the query point lies exactly on one of the contour's
boundary segments (a contour vertex included), `distance_to_point_sq`
returns `some 0`. -/
theorem C8_on_boundary_distance_zero (c : Contour) (q : Point2) (s : Segment)
    (hs : s ∈ iter_segments c) (hq : on_segment s q) :
    distance_to_point_sq c q = some 0 := by
  have hne : iter_segments c ≠ [] := fun h => by simp [h] at hs
  obtain ⟨v, hv, ⟨s0, hs0, hvs0⟩, hle⟩ := distance_min_spec c q hne
  have h0 : Segment.distance_to_point_sq s q = 0 := on_segment_distance_zero s q hq
  have hv0 : v ≤ 0 := h0 ▸ hle s hs
  have hvge : 0 ≤ v := hvs0 ▸ segment_distance_nonneg s0 q
  rw [hv, le_antisymm hv0 hvge]

theorem C8_on_boundary_distance_zero_witness :
    distance_to_point_sq (Contour.Open [⟨0, 0⟩, ⟨2, 0⟩]) ⟨1, 0⟩ = some 0 :=
  C8_on_boundary_distance_zero (Contour.Open [⟨0, 0⟩, ⟨2, 0⟩]) ⟨1, 0⟩
    ⟨⟨0, 0⟩, ⟨2, 0⟩⟩
    (by simp [iter_segments, iter_points_closing, pair_walk])
    ⟨1 / 2, by norm_num, by norm_num, by norm_num, by norm_num⟩

/-- C9: the minimum-selection comparator turns a failed (incomparable)
comparison into `Equal`, and minimum selection is total: it produces a
value on every non-empty list, and `distance_to_point_sq` produces a
value whenever the contour has segments, for every input. -/
theorem C9_min_selection_total {α : Type} (pcmp : α → α → Option Ordering)
    (a b : α) (l : List α) (c : Contour) (q : Point2) :
    (pcmp a b = none → pcmp_or_eq pcmp a b = Ordering.eq) ∧
    ((min_by (pcmp_or_eq pcmp) l).isSome ↔ l ≠ []) ∧
    ((distance_to_point_sq c q).isSome ↔ iter_segments c ≠ []) := by
  refine ⟨?_, ?_, ?_⟩
  · intro h
    simp [pcmp_or_eq, h]
  · cases l <;> simp [min_by]
  · unfold distance_to_point_sq
    cases h : iter_segments c <;> simp [min_by, h]

theorem C9_min_selection_total_witness :
    pcmp_or_eq pcmpNaN (none : Option ℚ) (some 0) = Ordering.eq :=
  (C9_min_selection_total pcmpNaN (none : Option ℚ) (some 0) []
    (Contour.Open []) ⟨0, 0⟩).1 rfl

/-- C10: a closed contour holding exactly one point `p` closes to
`[p, p]`, yields the single degenerate segment `(p, p)`, has signed area
zero, and its distance to any query point `q` is `some` of the squared
distance from `q` to `p`. -/
theorem C10_closed_singleton (p q : Point2) :
    iter_points_closing (Contour.Closed [p]) = [p, p] ∧
    iter_segments (Contour.Closed [p]) = [Segment.mk p p] ∧
    area_signed (Contour.Closed [p]) = 0 ∧
    distance_to_point_sq (Contour.Closed [p]) q =
      some ((q.x - p.x) ^ 2 + (q.y - p.y) ^ 2) := by
  refine ⟨rfl, rfl, ?_, ?_⟩
  · rw [area_signed_eq_chain_sum]
    show chain_sum [p, p] / 2 = 0
    simp [chain_sum, csum, cross]
  · show some (Segment.distance_to_point_sq (Segment.mk p p) q) = _
    congr 1
    simp [Segment.distance_to_point_sq]

example : area_signed (Contour.Closed [⟨0, 0⟩, ⟨0, 1⟩, ⟨1, 0⟩]) = -(1 / 2) := by
  norm_num [area_signed, iter_points_closing, area_loop]

example : area_signed (Contour.Closed [⟨0, 0⟩, ⟨1, 0⟩, ⟨0, 1⟩]) = 1 / 2 := by
  norm_num [area_signed, iter_points_closing, area_loop]

example : winding (Contour.Closed [⟨0, 0⟩, ⟨0, 1⟩, ⟨1, 0⟩]) = Winding.Clockwise := by
  norm_num [winding, area_signed, iter_points_closing, area_loop]

example :
    distance_to_point_sq (Contour.Closed [⟨0, 0⟩, ⟨1, 1⟩, ⟨1, 0⟩]) ⟨0, 1⟩ =
      some (1 / 2) := by
  norm_num +decide [distance_to_point_sq, iter_segments, iter_points_closing, pair_walk,
    Segment.distance_to_point_sq, min_by, cmp_min_by, pcmp_or_eq, pcmpQ]

example :
    distance_to_point_sq (Contour.Closed [⟨0, 0⟩, ⟨1, 1⟩, ⟨1, 0⟩]) ⟨2, 2⟩ =
      some 2 := by
  norm_num +decide [distance_to_point_sq, iter_segments, iter_points_closing, pair_walk,
    Segment.distance_to_point_sq, min_by, cmp_min_by, pcmp_or_eq, pcmpQ]

example :
    distance_to_point_sq (Contour.Closed [⟨0, 0⟩, ⟨1, 1⟩, ⟨1, 0⟩]) ⟨-2, -2⟩ =
      some 8 := by
  norm_num +decide [distance_to_point_sq, iter_segments, iter_points_closing, pair_walk,
    Segment.distance_to_point_sq, min_by, cmp_min_by, pcmp_or_eq, pcmpQ]

end Galileo
